import Mathlib

/-!
Shallow embedding of the `shaman` MAPF solver (Rust) in Lean 4.

Source files embedded: `src/layout.rs` (Vertex, Layout), `src/route.rs`
(Route and its collision predicates), `src/astar.rs` (RightOfWay, Action,
the space-time A* `solve`), `src/robot.rs` (Robot), `src/pbs.rs`
(Idea, Pbs::solve).

Modelling conventions, stated once here:
* Rust `f32` costs are modelled as `Nat`.  Every cost the program computes
  is a sum of the integer action costs (1, 2, 5) and of integer squared
  distances; for the magnitudes reachable in these grids such values and
  their sums are exactly representable in `f32`, and `OrderedFloat`
  comparison coincides with `Nat` comparison on them.
* `FxHashMap` is modelled as an association list where `insert` prepends
  and lookup takes the first match; this gives exactly the map's
  insert-overwrites lookup semantics.  `FxHashSet<Vertex>` (the layout's
  free space) is modelled as a duplicate-free `List Vertex`.
* `miette::SourceSpan` payloads are rendering-only and are dropped; error
  values keep the data that distinguishes them (which vertex, which kind).
-/

namespace Shaman

/-- `Vertex` from `src/layout.rs`: integer (x, y) cell position. -/
structure Vertex where
  x : Int
  y : Int
deriving DecidableEq

instance : Add Vertex := ⟨fun a b => ⟨a.x + b.x, a.y + b.y⟩⟩

/-- `Vertex::distance_squared` from `src/layout.rs` (returns `f32` there,
exactly an integer; modelled as `Nat`). -/
def Vertex.distance_squared (a b : Vertex) : Nat :=
  ((a.x - b.x) * (a.x - b.x) + (a.y - b.y) * (a.y - b.y)).toNat

/-- `Action` from `src/astar.rs`: one step choice of the robot. -/
inductive Action where
  | WAIT
  | N
  | W
  | E
  | S
deriving DecidableEq

/-- `Action::ALL` from `src/astar.rs`, in source order. -/
def Action.ALL : List Action := [.N, .W, .S, .E, .WAIT]

/-- `Action::direction` from `src/astar.rs`. -/
def Action.direction : Action → Vertex
  | .WAIT => ⟨0, 0⟩
  | .N => ⟨0, -1⟩
  | .S => ⟨0, 1⟩
  | .W => ⟨-1, 0⟩
  | .E => ⟨1, 0⟩

/-- `Action::cost` from `src/astar.rs`: the match arms are
`(WAIT, _) => 1.`, `(a, b) if *a == b => 2.`, `_ => 5.`. -/
def Action.cost (a previous : Action) : Nat :=
  match a, previous with
  | .WAIT, _ => 1
  | a, b => if a = b then 2 else 5

/-- `Sub for Vertex` from `src/layout.rs`: the difference of two vertices
as an `Action` — the first action of `Action::ALL` whose direction matches,
or `WAIT` (the default) when none does. -/
def Vertex.sub (a b : Vertex) : Action :=
  let d : Vertex := ⟨a.x - b.x, a.y - b.y⟩
  (Action.ALL.find? (fun ac => decide (ac.direction = d))).getD .WAIT

instance : HSub Vertex Vertex Action := ⟨Vertex.sub⟩

/-- `Layout` from `src/layout.rs`: the free cells (an `FxHashSet<Vertex>`,
modelled as a duplicate-free list) plus the rectangle dimensions.  The
`code : NamedSource` field is diagnostics-only and dropped. -/
structure Layout where
  space : List Vertex
  width : Nat
  height : Nat

/-- `Layout::is_blocked` from `src/layout.rs`: a vertex is blocked iff it is
not in the free-cell set. -/
def Layout.is_blocked (l : Layout) (v : Vertex) : Bool :=
  !(l.space.contains v)

/-- `Layout::free_cell_count` from `src/layout.rs`: the size of the free
set. -/
def Layout.free_cell_count (l : Layout) : Nat :=
  l.space.length

/-- `Location` from `src/robot.rs`: position of a robot at a point in
time. -/
structure Location where
  position : Vertex
  time : Nat
deriving DecidableEq

/-- `Route` from `src/route.rs`: a `VecDeque<Location>`, modelled as a
list in front-to-back order. -/
abbrev Route := List Location

/-- `Route::duration` from `src/route.rs`: time of the last location, or 0
when empty. -/
def Route.duration (r : Route) : Nat :=
  ((r.getLast?).map Location.time).getD 0

/-- `Itertools::tuple_windows` over a route: consecutive pairs. -/
def Route.windows (r : Route) : List (Location × Location) :=
  r.zip r.tail

/-- First component of `Route::intersection` (`src/route.rs`): locations
present in both routes (the Rust builds two hash sets and intersects them;
only the element set of the result is observable, and the embedding keeps
`self`'s order). -/
def Route.interSame (self other : Route) : List Vertex :=
  (self.filter (fun l => decide (l ∈ other))).map Location.position

/-- Second component of `Route::intersection`: the shared final vertex when
both routes terminate on the same position (`self.0.back().zip(other.0.back())`
filtered on equal positions). -/
def Route.interGoal (self other : Route) : List Vertex :=
  match self.getLast?, other.getLast? with
  | some a, some b => if a.position = b.position then [a.position] else []
  | _, _ => []

/-- Third component of `Route::intersection`: the edge-swap test.  For each
consecutive window `(now, then)` of `self`, the first window `(a, b)` of
`other` with `a.time == now.time` is looked up, and the window conflicts
when `b.position == now.position && a.position == then.position`; both of
`self`'s positions are then reported. -/
def Route.interSwap (self other : Route) : List Vertex :=
  ((Route.windows self).filter (fun w =>
      match (Route.windows other).find? (fun w' => decide (w'.1.time = w.1.time)) with
      | some w' => decide (w'.2.position = w.1.position) && decide (w'.1.position = w.2.position)
      | none => false)).flatMap (fun w => [w.1.position, w.2.position])

/-- `Route::intersection` from `src/route.rs`: the three parts concatenated
(the Rust `extend`s a `Vec` in this order). -/
def Route.intersection (self other : Route) : List Vertex :=
  Route.interSame self other ++ Route.interGoal self other ++ Route.interSwap self other

/-- `Route::conflicts` from `src/route.rs`: non-empty intersection. -/
def Route.conflicts (self other : Route) : Bool :=
  !(Route.intersection self other).isEmpty

/-- A route is proper when its i-th entry carries time i (the shape of
every route the planner builds: times 0, 1, ..., D in order). -/
def Route.Proper (r : Route) : Prop :=
  ∀ i (h : i < r.length), (r.get ⟨i, h⟩).time = i

instance (r : Route) : Decidable (Route.Proper r) :=
  Nat.decidableBallLT r.length fun i h => (r.get ⟨i, h⟩).time = i

/-- Association-list model of `FxHashMap` insertion: prepending together
with first-match lookup realises insert-overwrites semantics. -/
def alInsert {α β : Type} (k : α) (v : β) (m : List (α × β)) : List (α × β) :=
  (k, v) :: m

/-- Association-list model of `FxHashMap` lookup. -/
def alFind {α β : Type} [DecidableEq α] (m : List (α × β)) (k : α) : Option β :=
  (m.find? (fun p => decide (p.1 = k))).map Prod.snd

/-- `RightOfWay` from `src/astar.rs`: `temporary` is an
`FxHashMap<usize, Vertex>`; `permanent` a `Vec<(RangeFrom<usize>, Vertex)>`
(a range `t..` is kept as its start `t`). -/
structure RightOfWay where
  temporary : List (Nat × Vertex)
  permanent : List (Nat × Vertex)
deriving DecidableEq

/-- `RightOfWay::default()`. -/
def RightOfWay.empty : RightOfWay := ⟨[], []⟩

/-- `RightOfWay::at` from `src/astar.rs`: the temporary reservation at that
time if any, otherwise the first permanent range containing the time. -/
def RightOfWay.atTime (c : RightOfWay) (time : Nat) : Option Vertex :=
  match alFind c.temporary time with
  | some v => some v
  | none => (c.permanent.find? (fun p => decide (p.1 ≤ time))).map Prod.snd

/-- `AddAssign for RightOfWay` from `src/astar.rs`: `temporary.extend`
(other's entries inserted in iteration order, overwriting) and
`permanent.extend` (append). -/
def RightOfWay.add (m other : RightOfWay) : RightOfWay :=
  ⟨other.temporary.foldl (fun acc p => alInsert p.1 p.2 acc) m.temporary,
   m.permanent ++ other.permanent⟩

instance : Add RightOfWay := ⟨RightOfWay.add⟩

/-- `From<&Route> for RightOfWay` from `src/astar.rs`: all but the last
location collected (in reverse order) into `temporary`; the last location
becomes the open-ended `permanent` entry. -/
def RightOfWay.ofRoute (route : Route) : RightOfWay :=
  ⟨((route.reverse.drop 1).map (fun l => (l.time, l.position))).foldl
      (fun acc p => alInsert p.1 p.2 acc) [],
   (route.reverse.take 1).map (fun l => (l.time, l.position))⟩

/-- Error values surfaced by the core (`src/error.rs` `ShamanError`
variants that the embedded code raises, plus the two ad-hoc
`miette::ensure!` diagnostics of `astar::solve` and the ad-hoc errors of
`pbs.rs`/`robot.rs`; `SourceSpan`/`NamedSource` payloads dropped, vertex
payloads kept). -/
inductive ShamanError where
  | StartNotFree (v : Vertex)
  | GoalNotFree (v : Vertex)
  | RouteNotFound (start goal : Vertex)
  | NoGoal (name : Char)
  | OutOfIdeas
  | MissingRobot (name : Char)
deriving DecidableEq

/-- Is this error the `ParseError::RouteNotFound` diagnostic (the "No route
found" error of `§7`)? -/
def ShamanError.isRouteNotFound : ShamanError → Bool
  | .RouteNotFound _ _ => true
  | _ => false

/-- Decidable equality of run results (used only to evaluate the embedding
at concrete inputs). -/
instance {e a : Type} [DecidableEq e] [DecidableEq a] : DecidableEq (Except e a) := fun x y =>
  match x, y with
  | .error u, .error v =>
    match decEq u v with
    | isTrue h => isTrue (h ▸ rfl)
    | isFalse h => isFalse (fun hc => h (Except.error.inj hc))
  | .ok u, .ok v =>
    match decEq u v with
    | isTrue h => isTrue (h ▸ rfl)
    | isFalse h => isFalse (fun hc => h (Except.ok.inj hc))
  | .error _, .ok _ => isFalse (fun hc => Except.noConfusion hc)
  | .ok _, .error _ => isFalse (fun hc => Except.noConfusion hc)

/-- `Item` from `src/astar.rs`: an open-set entry with its f = g + h cost
and the boxed back-pointer used for route reconstruction. -/
inductive Item where
  | mk (location : Location) (cost : Nat) (came_from : Option Item)

/-- The `location` field of an `Item`. -/
def Item.location : Item → Location
  | .mk l _ _ => l

/-- The `cost` field of an `Item`. -/
def Item.cost : Item → Nat
  | .mk _ c _ => c

/-- The `came_from` field of an `Item`. -/
def Item.came_from : Item → Option Item
  | .mk _ _ p => p

/-- Route reconstruction at the goal (`src/astar.rs` lines 143-151):
`push_back` the popped item, then `push_front` every ancestor. -/
def Item.toRoute : Item → Route
  | .mk l _ none => [l]
  | .mk l _ (some prev) => prev.toRoute ++ [l]

/-- Pop from the open set.  `BinaryHeap<Item>` pops some minimal-cost item
(`Ord for Item` reverses the cost order); which of several equal-cost items
is popped is internal to `std`'s heap, and is modelled from the spec:
"ties broken by insertion order" — the first minimal-cost item wins. -/
def popMin : List Item → Option (Item × List Item)
  | [] => none
  | x :: xs =>
    match popMin xs with
    | none => some (x, [])
    | some (m, rest) => if x.cost ≤ m.cost then some (x, xs) else some (m, x :: rest)

/-- The A* score map `scores : FxHashMap<Location, f32>`. -/
abbrev Scores := List (Location × Nat)

/-- The body of the `for action in &Action::ALL` loop of `astar::solve`
(`src/astar.rs` lines 154-205), threading the open set and the score map.
`scores[&item.location]` is an indexing panic when absent; every popped
item's location is scored by construction, and the embedding reads it with
a default of 0. -/
def expandStep (layout : Layout) (goalv : Vertex) (constraint : RightOfWay)
    (item : Item) (st : List Item × Scores) (action : Action) : List Item × Scores :=
  let now := item.location.time
  let preT := now + 1
  let here := item.location.position
  let there := here + action.direction
  let candidate : Location := ⟨there, preT⟩
  if layout.is_blocked there then st
  else if (constraint.atTime preT).any (fun obstacle => decide (obstacle = candidate.position)) then st
  else if (match constraint.atTime now, constraint.atTime preT with
           | some a, some b => decide (a = there) && decide (b = here)
           | _, _ => false) then st
  else
    let previous_action := (item.came_from.map (fun prev => here - prev.location.position)).getD .WAIT
    let tentative_g := (alFind st.2 item.location).getD 0 + action.cost previous_action
    match alFind st.2 candidate with
    | some g =>
      if tentative_g < g then
        (st.1 ++ [Item.mk candidate (tentative_g + candidate.position.distance_squared goalv) (some item)],
         alInsert candidate tentative_g st.2)
      else st
    | none =>
      (st.1 ++ [Item.mk candidate (tentative_g + candidate.position.distance_squared goalv) (some item)],
       alInsert candidate tentative_g st.2)

/-- One node expansion of `astar::solve`: the action loop folded over
`Action::ALL`. -/
def expand (layout : Layout) (goalv : Vertex) (constraint : RightOfWay)
    (item : Item) (st : List Item × Scores) : List Item × Scores :=
  Action.ALL.foldl (expandStep layout goalv constraint item) st

/-- `MAX_ITER` from `src/astar.rs`. -/
def MAX_ITER : Nat := 10000

/-- The `while let Some(item) = open.pop()` loop of `astar::solve`
(`src/astar.rs` lines 137-206).  The Rust counts pops upward in `i` and
breaks once `i >= MAX_ITER`; the embedding counts the `remaining`
permitted pops downward (`remaining = MAX_ITER - i`), which is the same
loop with a structurally decreasing argument.  A popped item is dropped
when the budget is exhausted, returned (reconstructed) when it sits on the
goal, and expanded otherwise; both the drained-open-set exit and the
`break` fall through to the `RouteNotFound` error. -/
def solveLoop (layout : Layout) (startv goalv : Vertex) (constraint : RightOfWay) :
    Nat → List Item → Scores → Except ShamanError Route
  | remaining, openl, scores =>
    match popMin openl with
    | none => .error (.RouteNotFound startv goalv)
    | some (item, rest) =>
      match remaining with
      | 0 => .error (.RouteNotFound startv goalv)
      | rem + 1 =>
        if item.location.position = goalv then .ok item.toRoute
        else
          let st := expand layout goalv constraint item (rest, scores)
          solveLoop layout startv goalv constraint rem st.1 st.2

/-- `astar::solve` from `src/astar.rs`: the two `ensure!` preconditions,
then the search loop seeded with `(start, 0)` at score 0 and a budget of
`MAX_ITER` pops. -/
def astarSolve (layout : Layout) (startv goalv : Vertex) (constraint : RightOfWay) :
    Except ShamanError Route :=
  if layout.is_blocked startv then .error (.StartNotFree startv)
  else if layout.is_blocked goalv then .error (.GoalNotFree goalv)
  else
    let s : Location := ⟨startv, 0⟩
    solveLoop layout startv goalv constraint MAX_ITER [.mk s 0 none] [(s, 0)]

/-- `Robot` from `src/robot.rs` (rendering fields and spans dropped). -/
structure Robot where
  name : Char
  position : Vertex
  route : Route
  goal : Option Vertex
deriving DecidableEq

/-- `Robot::plan` from `src/robot.rs`: error when no goal is assigned,
otherwise replace the route by a fresh `astar::solve` result. -/
def Robot.plan (r : Robot) (layout : Layout) (constraint : RightOfWay) :
    Except ShamanError Robot :=
  match r.goal with
  | none => .error (.NoGoal r.name)
  | some g => (astarSolve layout r.position g constraint).map (fun route => { r with route })

/-- The priority graph of `src/pbs.rs`: an
`Acyclic<StableDiGraph<char, ()>>`.  Nodes are kept in insertion order and
edges as ordered pairs of node names (names are unique in the graph, so
indexing by name matches indexing by `NodeIndex`). -/
structure Digraph where
  nodes : List Char
  edges : List (Char × Char)
deriving DecidableEq

/-- Fuel-bounded reachability along directed edges: is there a path of at
most `fuel` edges from `a` to `b`? -/
def reachable (edges : List (Char × Char)) : Nat → Char → Char → Bool
  | 0, a, b => decide (a = b)
  | fuel + 1, a, b =>
    decide (a = b) ||
      (edges.filter (fun e => decide (e.1 = a))).any (fun e => reachable edges fuel e.2 b)

/-- A path from `a` to `b` using the listed edges, as the explicit list of
edges traversed. -/
inductive Chain (edges : List (Char × Char)) : Char → Char → List (Char × Char) → Prop where
  | nil (a : Char) : Chain edges a a []
  | cons {a b w : Char} {l : List (Char × Char)} :
      (a, w) ∈ edges → Chain edges w b l → Chain edges a b ((a, w) :: l)

/-- True acyclicity: no edge is closed into a cycle by any path. -/
def Acyclic (edges : List (Char × Char)) : Prop :=
  ∀ p ∈ edges, ∀ l, ¬ Chain edges p.2 p.1 l

/-- `Idea::find_or_create_node` from `src/pbs.rs`: look the name up among
the nodes, appending a fresh node when absent. -/
def Digraph.findOrCreate (g : Digraph) (name : Char) : Digraph :=
  if name ∈ g.nodes then g else { g with nodes := g.nodes ++ [name] }

/-- Modelled from the spec: `petgraph`'s `Acyclic::try_add_edge` (the crate
is not part of this repository).  Per §4.5/§9 the insertion is rejected
exactly when the new edge would create a cycle, i.e. when the subordinate
already reaches the boss; a simple path in `edges` repeats no edge, so
fuel `edges.length` decides reachability. -/
def Digraph.tryAddEdge (g : Digraph) (b s : Char) : Option Digraph :=
  if reachable g.edges g.edges.length s b then none
  else some { g with edges := g.edges ++ [(b, s)] }

/-- Modelled from the spec: `petgraph::algo::toposort` (the crate is not
part of this repository).  §4.5: "Perform a topological sort of the DAG".
Kahn-style: repeatedly emit the first remaining node without an incoming
edge from the remaining nodes.  For an acyclic graph this emits every
node, in a topological order. -/
def topoModel : Nat → List Char → List (Char × Char) → List Char
  | 0, _, _ => []
  | fuel + 1, ns, es =>
    match ns.find? (fun n => !(es.any (fun e => decide (e.2 = n) && decide (e.1 ∈ ns)))) with
    | none => []
    | some n => n :: topoModel fuel (ns.erase n) es

/-- The topological order `Idea::plan` walks (`toposort(&self.priorities)`
mapped back to node names). -/
def Digraph.toposort (g : Digraph) : List Char :=
  topoModel g.nodes.length g.nodes g.edges

/-- Update the robot stored under a name (an `FxHashMap` in-place
`get_mut`; association-list order preserved). -/
def updateRobot (robots : List (Char × Robot)) (n : Char) (r : Robot) :
    List (Char × Robot) :=
  robots.map (fun p => if p.1 = n then (n, r) else p)

/-- The `for n in &order` loop of `Idea::plan` (`src/pbs.rs` lines
107-113): walk the order, replan each robot against the accumulated
constraints, then merge its new route into the constraints.  Besides the
updated robot map, the embedding also returns an instrumentation trace
recording, for each planned robot, the `RightOfWay` it was planned against
and the route it obtained.  The `self.robots.get_mut(n).unwrap()` panic
(impossible in the program: every node is a robot name) is surfaced as
`MissingRobot`. -/
def planAux (layout : Layout) :
    List Char → List (Char × Robot) → RightOfWay →
    Except ShamanError (List (Char × Robot) × List (Char × RightOfWay × Route))
  | [], robots, _ => .ok (robots, [])
  | n :: rest, robots, constraints =>
    match alFind robots n with
    | none => .error (.MissingRobot n)
    | some robot =>
      match robot.plan layout constraints with
      | .error e => .error e
      | .ok robot' =>
        match planAux layout rest (updateRobot robots n robot')
            (constraints + RightOfWay.ofRoute robot'.route) with
        | .error e => .error e
        | .ok (robots', trace) => .ok (robots', (n, constraints, robot'.route) :: trace)

/-- `Idea` from `src/pbs.rs`: a candidate solution (robots as an
association list in the map's iteration order, plus the priority DAG). -/
structure Idea where
  priorities : Digraph
  robots : List (Char × Robot)
deriving DecidableEq

/-- `Idea::cost` from `src/pbs.rs`: sum of the route durations. -/
def Idea.cost (i : Idea) : Nat :=
  (i.robots.map (fun p => p.2.route.duration)).sum

/-- `Idea::plan` from `src/pbs.rs`: replan every robot of the priority DAG
in topological order, starting from an empty `RightOfWay`. -/
def Idea.plan (layout : Layout) (i : Idea) : Except ShamanError Idea :=
  (planAux layout i.priorities.toposort i.robots RightOfWay.empty).map
    (fun out => { i with robots := out.1 })

/-- `Idea::branch` from `src/pbs.rs`: clone, ensure both nodes exist,
reject when the edge already exists or would close a cycle, then replan;
a failed replan rejects the child. -/
def Idea.branch (layout : Layout) (i : Idea) (boss subordinate : Char) : Option Idea :=
  let g := (i.priorities.findOrCreate boss).findOrCreate subordinate
  if (boss, subordinate) ∈ g.edges then none
  else
    match g.tryAddEdge boss subordinate with
    | none => none
    | some g' =>
      match Idea.plan layout { i with priorities := g' } with
      | .error _ => none
      | .ok child => some child

/-- `tuple_combinations().find(...)` of `Pbs::solve` (`src/pbs.rs` lines
41-46): the first conflicting pair of robots in iteration order. -/
def firstConflict : List Robot → Option (Char × Char)
  | [] => none
  | r :: rest =>
    match rest.find? (fun b => r.route.conflicts b.route) with
    | some b => some (r.name, b.name)
    | none => firstConflict rest

/-- Pop from the PBS frontier.  `BinaryHeap<Idea>` with `Ord for Idea`
(`src/pbs.rs` lines 77-81: compare by `cost()`, reversed) pops some
minimal-cost idea; which of several equal-cost ideas is internal to
`std`'s heap and is modelled from the spec (§5): "When two children have
equal cost, the one inserted first wins" — the first minimal-cost idea is
popped. -/
def popMinIdea : List Idea → Option (Idea × List Idea)
  | [] => none
  | x :: xs =>
    match popMinIdea xs with
    | none => some (x, [])
    | some (m, rest) => if x.cost ≤ m.cost then some (x, xs) else some (m, x :: rest)

/-- The `while let Some(idea) = self.queue.pop()` loop of `Pbs::solve`
(`src/pbs.rs` lines 40-67), fuel-indexed to express the recursion (the
fuel is a modelling artifact: every returned `.ok`/`.error OutOfIdeas`
is a faithful run of the loop).  On a conflict-free idea the robot map is
rebuilt keyed by robot name and returned; otherwise both orientations of
the conflict edge are branched and pushed. -/
def solveAux (layout : Layout) : Nat → List Idea → Except ShamanError (List (Char × Robot))
  | 0, _ => .error .OutOfIdeas
  | fuel + 1, queue =>
    match popMinIdea queue with
    | none => .error .OutOfIdeas
    | some (idea, rest) =>
      match firstConflict (idea.robots.map Prod.snd) with
      | none => .ok (idea.robots.map (fun p => (p.2.name, p.2)))
      | some (a, b) =>
        solveAux layout fuel
          (rest ++ (idea.branch layout a b).toList ++ (idea.branch layout b a).toList)

/-- `Shaman` from `src/lib.rs`: the world (robots plus layout). -/
structure World where
  robots : List (Char × Robot)
  layout : Layout

/-- `From<Shaman> for Pbs` composed with `Pbs::solve` — i.e.
`Shaman::solve` from `src/lib.rs`: seed the frontier with the current
robots under an empty priority graph (`Acyclic::new()`) and run the
loop. -/
def World.solve (w : World) (fuel : Nat) : Except ShamanError (List (Char × Robot)) :=
  solveAux w.layout fuel [⟨⟨[], []⟩, w.robots⟩]

/-- The PBS nodes reachable in a run of `Pbs::solve`: the initial idea
(empty priority graph) and every accepted child of a reachable idea. -/
inductive ReachableIdea (layout : Layout) : Idea → Prop where
  | init (robots : List (Char × Robot)) : ReachableIdea layout ⟨⟨[], []⟩, robots⟩
  | branch {i c : Idea} {a b : Char} :
      ReachableIdea layout i → i.branch layout a b = some c → ReachableIdea layout c

/-! ### Concrete worlds used by witnesses and counterexamples -/

/-- A 5×1 all-free corridor. -/
def corridor5 : Layout := ⟨[⟨0, 0⟩, ⟨1, 0⟩, ⟨2, 0⟩, ⟨3, 0⟩, ⟨4, 0⟩], 5, 1⟩

/-- Robot A, already parked on its goal. -/
def robA : Robot := ⟨'A', ⟨0, 0⟩, [⟨⟨0, 0⟩, 0⟩], some ⟨0, 0⟩⟩

/-- Robot B, already parked on its goal. -/
def robB : Robot := ⟨'B', ⟨4, 0⟩, [⟨⟨4, 0⟩, 0⟩], some ⟨4, 0⟩⟩

/-- Robot C, already parked on its goal. -/
def robC : Robot := ⟨'C', ⟨2, 0⟩, [⟨⟨2, 0⟩, 0⟩], some ⟨2, 0⟩⟩

/-! ### Generic helper lemmas -/

theorem alFind_timeMap (s : List Location) (k : Nat)
    (hk : ∀ i (h : i < s.length), (s.get ⟨i, h⟩).time = k + i) (t : Nat) :
    alFind (s.map (fun l => (l.time, l.position))) (k + t) =
      if h : t < s.length then some ((s.get ⟨t, h⟩).position) else none := by
  induction s generalizing k t with
  | nil => simp [alFind]
  | cons l0 rest ih =>
    have h0 : l0.time = k := by simpa using hk 0 (by simp)
    cases t with
    | zero =>
      simp [alFind, List.find?_cons, h0]
    | succ t =>
      have hne : ¬ (l0.time = k + (t + 1)) := by omega
      have hrest : ∀ i (h : i < rest.length), (rest.get ⟨i, h⟩).time = (k + 1) + i := by
        intro i h
        have := hk (i + 1) (by simpa using Nat.succ_lt_succ h)
        simpa [Nat.add_comm, Nat.add_assoc, Nat.add_left_comm] using this
      have := ih (k + 1) hrest t
      have harith : k + (t + 1) = (k + 1) + t := by omega
      rw [harith]
      simp only [List.map_cons, alFind, List.find?_cons] at *
      rw [show (decide (l0.time = (k+1) + t)) = false by simp; omega]
      by_cases hlt : t < rest.length
      · simpa [alFind, hlt] using this
      · simpa [alFind, hlt] using this

theorem foldl_alInsert_eq_reverse (l : List (Nat × Vertex)) (acc : List (Nat × Vertex)) :
    l.foldl (fun acc p => alInsert p.1 p.2 acc) acc = l.reverse ++ acc := by
  induction l generalizing acc with
  | nil => simp
  | cons p rest ih => simp [alInsert, ih]

theorem popMinIdea_eq_none {l : List Idea} (h : popMinIdea l = none) : l = [] := by
  cases l with
  | nil => rfl
  | cons x xs =>
    simp only [popMinIdea] at h
    rcases hxs : popMinIdea xs with - | ⟨m, rest⟩ <;> rw [hxs] at h <;> simp at h
    split at h <;> simp at h

theorem topoModel_subset (fuel : Nat) (ns : List Char) (es : List (Char × Char)) :
    ∀ x ∈ topoModel fuel ns es, x ∈ ns := by
  induction fuel generalizing ns with
  | zero => simp [topoModel]
  | succ fuel ih =>
    intro x hx
    simp only [topoModel] at hx
    rcases hfind : ns.find? (fun n => !(es.any (fun e => decide (e.2 = n) && decide (e.1 ∈ ns)))) with - | n <;>
      rw [hfind] at hx
    · simp at hx
    · rcases List.mem_cons.mp hx with h | h
      · exact h ▸ List.mem_of_find?_eq_some hfind
      · exact List.erase_subset n ns (ih (ns.erase n) x h)

theorem alFind_updateRobot_ne (robots : List (Char × Robot)) (m n : Char) (r : Robot)
    (h : n ≠ m) : alFind (updateRobot robots m r) n = alFind robots n := by
  induction robots with
  | nil => rfl
  | cons p rest ih =>
    simp only [updateRobot, List.map_cons, alFind, List.find?_cons] at *
    by_cases hpm : p.1 = m
    · rw [if_pos hpm]
      rw [show (decide (m = n)) = false by simp [Ne.symm h]]
      rw [show (decide (p.1 = n)) = false by simp [hpm, Ne.symm h]]
      exact ih
    · rw [if_neg hpm]
      by_cases hpn : p.1 = n
      · simp [hpn]
      · simp only [show (decide (p.1 = n)) = false by simp [hpn]]
        exact ih

theorem planAux_untouched (layout : Layout) (order : List Char)
    (robots : List (Char × Robot)) (c : RightOfWay) (out) (n : Char)
    (hn : n ∉ order) (h : planAux layout order robots c = .ok out) :
    alFind out.1 n = alFind robots n := by
  induction order generalizing robots c out with
  | nil =>
    simp only [planAux] at h
    cases h
    rfl
  | cons m rest ih =>
    simp only [planAux] at h
    split at h
    · simp at h
    rename_i robot hfind
    split at h
    · simp at h
    rename_i robot' hplan
    split at h
    · simp at h
    rename_i robots' trace hrec
    cases h
    have hn1 : n ≠ m := fun hc => hn (hc ▸ List.mem_cons_self m rest)
    have hn2 : n ∉ rest := fun hc => hn (List.mem_cons_of_mem m hc)
    calc alFind robots' n
        = alFind (updateRobot robots m robot') n := ih _ _ _ hn2 hrec
      _ = alFind robots n := alFind_updateRobot_ne robots m n robot' hn1

/-! ### C2 — action cost function -/

/-- C2 counterexample: the claim states `cost(a, a) = 1` for a non-wait
action and `cost(a, b) = 2` for distinct non-wait-compatible actions; the
code returns 2 and 5 there (`src/astar.rs` lines 98-104). -/
theorem cost_claim_false : Action.cost .N .N ≠ 1 ∧ Action.cost .N .E ≠ 2 := by
  decide

/-- C2 (amended): `cost(WAIT, prev) = 1` for every `prev`; for a non-wait
action `a`, `cost(a, a) = 2` (continue straight) and `cost(a, b) = 5` for
`b ≠ a` (a turn). -/
theorem cost_spec (a b : Action) :
    Action.cost .WAIT b = 1 ∧
    (a ≠ .WAIT → Action.cost a a = 2) ∧
    (a ≠ .WAIT → a ≠ b → Action.cost a b = 5) := by
  refine ⟨rfl, ?_, ?_⟩
  · intro h1
    cases a <;> first | exact absurd rfl h1 | rfl
  · intro h1 h2
    cases a <;> cases b <;> first | exact absurd rfl h1 | exact absurd rfl h2 | rfl

/-- C2 witness: the amended cost values at concrete actions. -/
theorem cost_spec_witness :
    Action.cost .WAIT .N = 1 ∧ Action.cost .N .N = 2 ∧ Action.cost .N .E = 5 :=
  ⟨(cost_spec .N .N).1, (cost_spec .N .N).2.1 (by decide),
   (cost_spec .N .E).2.2 (by decide) (by decide)⟩

/-! ### C5 — goal-hold vertex is always reported by `Route::intersection` -/

/-- C5: when two non-empty routes terminate on the same position, that
shared vertex is in their intersection, whatever the two durations. -/
theorem intersection_goal_hold (r1 r2 : Route) (l1 l2 : Location)
    (h1 : r1.getLast? = some l1) (h2 : r2.getLast? = some l2)
    (hpos : l1.position = l2.position) :
    l1.position ∈ Route.intersection r1 r2 := by
  have : l1.position ∈ Route.interGoal r1 r2 := by
    unfold Route.interGoal
    rw [h1, h2]
    simp [hpos]
  unfold Route.intersection
  exact List.mem_append.mpr (Or.inl (List.mem_append.mpr (Or.inr this)))

/-- C5 witness: two routes of different durations ending on `(1,0)`. -/
theorem intersection_goal_hold_witness :
    Location.position ⟨⟨1, 0⟩, 1⟩ ∈
      Route.intersection [⟨⟨0, 0⟩, 0⟩, ⟨⟨1, 0⟩, 1⟩] [⟨⟨1, 0⟩, 0⟩] :=
  intersection_goal_hold _ _ _ _ rfl rfl rfl

/-! ### C8 — blocked start or goal -/

/-- A 2×1 strip whose cell (0,0) is blocked. -/
def halfBlocked : Layout := ⟨[⟨1, 0⟩], 2, 1⟩

/-- C8 (amended): a blocked start (resp. a free start and a blocked goal)
makes `astar::solve` fail up front with the diagnostic naming the vertex
that is not free — the `ensure!` errors "Start not free" / "Goal not
free", which are distinct from `RouteNotFound`. -/
theorem solve_blocked_endpoints (layout : Layout) (s g : Vertex) (c : RightOfWay) :
    (layout.is_blocked s = true →
      astarSolve layout s g c = .error (.StartNotFree s)) ∧
    (layout.is_blocked s = false → layout.is_blocked g = true →
      astarSolve layout s g c = .error (.GoalNotFree g)) := by
  constructor
  · intro h1
    simp [astarSolve, h1]
  · intro h1 h2
    simp [astarSolve, h1, h2]

/-- C8 witness: the two amended behaviours on the half-blocked strip. -/
theorem solve_blocked_endpoints_witness :
    astarSolve halfBlocked ⟨0, 0⟩ ⟨1, 0⟩ RightOfWay.empty = .error (.StartNotFree ⟨0, 0⟩) ∧
    astarSolve halfBlocked ⟨1, 0⟩ ⟨0, 0⟩ RightOfWay.empty = .error (.GoalNotFree ⟨0, 0⟩) :=
  ⟨(solve_blocked_endpoints halfBlocked ⟨0, 0⟩ ⟨1, 0⟩ RightOfWay.empty).1 (by decide),
   (solve_blocked_endpoints halfBlocked ⟨1, 0⟩ ⟨0, 0⟩ RightOfWay.empty).2 (by decide) (by decide)⟩

/-- C8 counterexample: on a blocked start the error is the "Start not
free" diagnostic, not the `RouteNotFound` ("No route found") error the
claim names. -/
theorem solve_blocked_start_not_RouteNotFound :
    astarSolve halfBlocked ⟨0, 0⟩ ⟨1, 0⟩ RightOfWay.empty = .error (.StartNotFree ⟨0, 0⟩) ∧
    (ShamanError.StartNotFree ⟨0, 0⟩).isRouteNotFound = false :=
  ⟨rfl, rfl⟩

/-! ### C7 — PBS frontier pop order -/

/-- C7: characterisation of the frontier pop.  The popped idea sits at an
index `k`; every idea at a smaller index (inserted earlier) has a strictly
larger aggregate cost, and no idea in the frontier has a smaller cost.  In
particular, of two equal-cost children the one inserted first is popped
first, and pop order is otherwise governed by `Idea.cost` (the sum of the
route durations, `src/pbs.rs` lines 77-97). -/
theorem popMinIdea_first_of_minimum (q : List Idea) (x : Idea) (rest : List Idea)
    (h : popMinIdea q = some (x, rest)) :
    ∃ k, ∃ (hk : k < q.length),
      x = q.get ⟨k, hk⟩ ∧ rest = q.eraseIdx k ∧
      (∀ m (hm : m < k), x.cost < (q.get ⟨m, Nat.lt_trans hm hk⟩).cost) ∧
      (∀ m (hm : m < q.length), x.cost ≤ (q.get ⟨m, hm⟩).cost) := by
  induction q generalizing x rest with
  | nil => simp [popMinIdea] at h
  | cons a as ih =>
    simp only [popMinIdea] at h
    split at h
    · rename_i has
      have hnil : as = [] := popMinIdea_eq_none has
      subst hnil
      cases h
      refine ⟨0, by simp, rfl, rfl, ?_, ?_⟩
      · intro m hm; omega
      · intro m hm
        have hm0 : m = 0 := by simpa using hm
        subst hm0
        exact Nat.le_refl _
    · rename_i m rest' has
      obtain ⟨k', hk', hxm, hrest', hlt', hle'⟩ := ih m rest' has
      by_cases hcost : a.cost ≤ m.cost
      · rw [if_pos hcost] at h
        cases h
        refine ⟨0, by simp, rfl, rfl, ?_, ?_⟩
        · intro m hm; omega
        · intro j hj
          cases j with
          | zero => exact Nat.le_refl _
          | succ j =>
            have hj' : j < as.length := by simpa using hj
            calc a.cost ≤ m.cost := hcost
              _ ≤ (as.get ⟨j, hj'⟩).cost := hle' j hj'
      · rw [if_neg hcost] at h
        cases h
        have hmlt : x.cost < a.cost := by omega
        refine ⟨k' + 1, by simpa using Nat.succ_lt_succ hk', by simpa using hxm,
          by rw [hrest']; rfl, ?_, ?_⟩
        · intro j hj
          cases j with
          | zero => exact hmlt
          | succ j => exact hlt' j (by omega)
        · intro j hj
          cases j with
          | zero => exact Nat.le_of_lt hmlt
          | succ j => exact hle' j (by simpa using hj)

/-- C7 witness: a frontier of two distinct equal-cost ideas pops the one
inserted first. -/
theorem popMinIdea_first_of_minimum_witness :
    ∃ k, ∃ (hk : k < ([⟨⟨[], []⟩, [('A', robA)]⟩, ⟨⟨[], []⟩, [('B', robB)]⟩] : List Idea).length),
      (⟨⟨[], []⟩, [('A', robA)]⟩ : Idea) =
        ([⟨⟨[], []⟩, [('A', robA)]⟩, ⟨⟨[], []⟩, [('B', robB)]⟩] : List Idea).get ⟨k, hk⟩ ∧
      [(⟨⟨[], []⟩, [('B', robB)]⟩ : Idea)] =
        ([⟨⟨[], []⟩, [('A', robA)]⟩, ⟨⟨[], []⟩, [('B', robB)]⟩] : List Idea).eraseIdx k ∧
      (∀ m (hm : m < k), (⟨⟨[], []⟩, [('A', robA)]⟩ : Idea).cost <
        (([⟨⟨[], []⟩, [('A', robA)]⟩, ⟨⟨[], []⟩, [('B', robB)]⟩] : List Idea).get
          ⟨m, Nat.lt_trans hm hk⟩).cost) ∧
      (∀ m (hm : m < ([⟨⟨[], []⟩, [('A', robA)]⟩, ⟨⟨[], []⟩, [('B', robB)]⟩] : List Idea).length),
        (⟨⟨[], []⟩, [('A', robA)]⟩ : Idea).cost ≤
        (([⟨⟨[], []⟩, [('A', robA)]⟩, ⟨⟨[], []⟩, [('B', robB)]⟩] : List Idea).get ⟨m, hm⟩).cost) :=
  popMinIdea_first_of_minimum _ _ _ (by rfl)

/-! ### C10 — `Idea::plan` replans exactly the DAG's robots -/

/-- C10: `Idea::plan` walks only the nodes of the priority DAG; every
robot whose name is not a DAG node keeps its entry (hence its route)
unchanged, and with an empty DAG (the initial PBS node) the idea is
returned untouched. -/
theorem plan_frame (layout : Layout) (i i' : Idea)
    (h : Idea.plan layout i = .ok i') :
    (∀ name, name ∉ i.priorities.nodes → alFind i'.robots name = alFind i.robots name) ∧
    (i.priorities.nodes = [] → i' = i) := by
  have hplan := h
  unfold Idea.plan at hplan
  rcases haux : planAux layout i.priorities.toposort i.robots RightOfWay.empty
    with e | out <;> rw [haux] at hplan
  · simp [Except.map] at hplan
  · simp only [Except.map] at hplan
    cases hplan
    constructor
    · intro name hname
      have hnotin : name ∉ i.priorities.toposort := by
        intro hmem
        exact hname (topoModel_subset _ _ _ name hmem)
      exact planAux_untouched layout _ i.robots RightOfWay.empty out name hnotin haux
    · intro hempty
      have htopo : i.priorities.toposort = [] := by
        simp [Digraph.toposort, hempty, topoModel]
      rw [htopo] at haux
      simp only [planAux] at haux
      cases haux
      rfl

/-- C10 witness: an idea with an empty DAG and one robot off the DAG is
returned unchanged by `Idea::plan`. -/
theorem plan_frame_witness :
    alFind (Idea.robots ⟨⟨[], []⟩, [('A', robA)]⟩) 'A' =
      alFind (Idea.robots ⟨⟨[], []⟩, [('A', robA)]⟩) 'A' ∧
    (⟨⟨[], []⟩, [('A', robA)]⟩ : Idea) = ⟨⟨[], []⟩, [('A', robA)]⟩ := by
  have h := plan_frame corridor5 ⟨⟨[], []⟩, [('A', robA)]⟩ ⟨⟨[], []⟩, [('A', robA)]⟩ (by rfl)
  exact ⟨(h.1 'A' (by simp)) ▸ rfl, h.2 rfl⟩

/-! ### C6 — RightOfWay round-trip -/

theorem ofRoute_concat (ys : List Location) (lst : Location) :
    RightOfWay.ofRoute (ys ++ [lst]) =
      ⟨ys.map (fun l => (l.time, l.position)), [(lst.time, lst.position)]⟩ := by
  unfold RightOfWay.ofRoute
  congr 1
  · rw [show (ys ++ [lst]).reverse.drop 1 = ys.reverse by simp]
    rw [List.map_reverse, foldl_alInsert_eq_reverse]
    simp
  · rw [show (ys ++ [lst]).reverse.take 1 = [lst] by simp]
    rfl

/-- C6: for a proper route `R` (times 0..D in order), querying the
`RightOfWay` built `From<&Route>` at any `t ≤ duration(R)` yields exactly
`R`'s position at time `t` — via a temporary entry for `t < D` and via the
permanent goal-hold entry for `t = D`. -/
theorem rightOfWay_roundTrip (r : Route) (hp : Route.Proper r) (hne : r ≠ [])
    (t : Nat) (ht : t ≤ r.duration) :
    ∃ (hlt : t < r.length),
      (RightOfWay.ofRoute r).atTime t = some ((r.get ⟨t, hlt⟩).position) := by
  induction r using List.reverseRecOn with
  | nil => exact absurd rfl hne
  | append_singleton ys lst ihys =>
    clear ihys
    have hlen : (ys ++ [lst]).length = ys.length + 1 := by simp
    have hlast : (ys ++ [lst]).get ⟨ys.length, by omega⟩ = lst := by
      simp [List.get_append_right]
    have htime_lst : lst.time = ys.length := by
      have := hp ys.length (by omega)
      rwa [hlast] at this
    have hdur : Route.duration (ys ++ [lst]) = ys.length := by
      unfold Route.duration
      rw [List.getLast?_concat]
      simp [htime_lst]
    rw [hdur] at ht
    have hget_left : ∀ i (hi : i < ys.length),
        (ys ++ [lst]).get ⟨i, by omega⟩ = ys.get ⟨i, hi⟩ := by
      intro i hi
      exact List.get_append i hi
    have hys_proper : ∀ i (hi : i < ys.length), (ys.get ⟨i, hi⟩).time = i := by
      intro i hi
      have := hp i (by omega)
      rwa [hget_left i hi] at this
    have htemp := alFind_timeMap ys 0 (by simpa using hys_proper) t
    rw [Nat.zero_add] at htemp
    refine ⟨by omega, ?_⟩
    rw [ofRoute_concat]
    unfold RightOfWay.atTime
    by_cases hcase : t < ys.length
    · rw [htemp, dif_pos hcase]
      exact congrArg (fun l => some l.position) (hget_left t hcase).symm
    · have hteq : t = ys.length := by omega
      subst hteq
      rw [htemp, dif_neg hcase]
      have hle : decide (lst.time ≤ ys.length) = true := by simp [htime_lst]
      simp only [List.find?_cons, hle]
      exact congrArg (fun l => some l.position) hlast.symm

/-! ### C4 — constraints used by `Idea::plan` -/

/-- `order` is a topological order of the DAG `g`: it enumerates the nodes
and places the source of every edge before its target. -/
def IsToposort (g : Digraph) (order : List Char) : Prop :=
  order.Perm g.nodes ∧ ∀ e ∈ g.edges, order.indexOf e.1 < order.indexOf e.2

instance (g : Digraph) (order : List Char) : Decidable (IsToposort g order) :=
  inferInstanceAs (Decidable (_ ∧ _))

theorem indexOf_get_of_nodup (l : List Char) (hn : l.Nodup) (i : Nat) (hi : i < l.length) :
    l.indexOf (l.get ⟨i, hi⟩) = i := by
  induction l generalizing i with
  | nil => simp at hi
  | cons a as ih =>
    rcases List.nodup_cons.mp hn with ⟨hnotin, hnd⟩
    cases i with
    | zero => simp
    | succ i =>
      have hi' : i < as.length := by simpa using hi
      have hget : (a :: as).get ⟨i + 1, hi⟩ = as.get ⟨i, hi'⟩ := rfl
      have hne : (a == as.get ⟨i, hi'⟩) = false := by
        refine beq_eq_false_iff_ne.mpr fun hc => hnotin ?_
        rw [hc]
        exact List.get_mem as i hi'
      rw [hget, List.indexOf_cons, hne, ih hnd i hi']
      rfl

theorem mem_take_of_indexOf_lt (l : List Char) (u : Char) (i : Nat)
    (hu : u ∈ l) (h : l.indexOf u < i) : u ∈ l.take i := by
  induction l generalizing i with
  | nil => simp at hu
  | cons a as ih =>
    cases i with
    | zero => exact absurd h (Nat.not_lt_zero _)
    | succ i =>
      by_cases hua : u = a
      · exact hua ▸ List.mem_cons_self _ _
      · have hu' : u ∈ as := (List.mem_cons.mp hu).resolve_left hua
        have hne : (a == u) = false := beq_eq_false_iff_ne.mpr (Ne.symm hua)
        rw [List.indexOf_cons, hne] at h
        have h' : List.indexOf u as < i := by
          simpa using h
        exact List.mem_cons_of_mem a (ih i hu' h')

theorem planAux_trace_spec (layout : Layout) (order : List Char)
    (robots : List (Char × Robot)) (c0 : RightOfWay)
    (rs : List (Char × Robot)) (tr : List (Char × RightOfWay × Route))
    (h : planAux layout order robots c0 = .ok (rs, tr)) :
    tr.length = order.length ∧
    ∀ i (hi : i < tr.length),
      (tr.get ⟨i, hi⟩).2.1 =
        ((tr.take i).map (fun e => e.2.2)).foldl
          (fun acc r => acc + RightOfWay.ofRoute r) c0 := by
  induction order generalizing robots c0 rs tr with
  | nil =>
    simp only [planAux] at h
    cases h
    exact ⟨rfl, fun i hi => by simp at hi⟩
  | cons n rest ih =>
    simp only [planAux] at h
    split at h
    · simp at h
    rename_i robot hfind
    split at h
    · simp at h
    rename_i robot' hplan
    split at h
    · simp at h
    rename_i robots' trace hrec
    cases h
    obtain ⟨hlen, hspec⟩ := ih _ _ _ _ hrec
    refine ⟨by simpa using hlen, ?_⟩
    intro i hi
    cases i with
    | zero => rfl
    | succ i =>
      have hi' : i < trace.length := by simpa using hi
      have := hspec i hi'
      simpa [List.foldl_cons] using this

/-- C4 (amended): `Idea::plan` walks the agents in the given topological
order, and the `RightOfWay` handed to the i-th agent is the merge of the
(freshly planned) routes of all agents strictly earlier in that order —
a superset of its strict predecessors (every strict predecessor does lie
in the processed prefix), but, when the DAG has incomparable nodes, it can
also contain routes of non-predecessors, so an agent with no predecessors
is planned against the empty `RightOfWay` only when nothing precedes it in
the order. -/
theorem plan_prefix_merge (layout : Layout) (g : Digraph) (order : List Char)
    (robots : List (Char × Robot)) (c0 : RightOfWay)
    (rs : List (Char × Robot)) (tr : List (Char × RightOfWay × Route))
    (htopo : IsToposort g order) (hnodup : order.Nodup)
    (hclosed : ∀ e ∈ g.edges, e.1 ∈ g.nodes)
    (h : planAux layout order robots c0 = .ok (rs, tr)) :
    tr.length = order.length ∧
    (∀ i (hi : i < tr.length),
      (tr.get ⟨i, hi⟩).2.1 =
        ((tr.take i).map (fun e => e.2.2)).foldl
          (fun acc r => acc + RightOfWay.ofRoute r) c0) ∧
    (∀ i (hi : i < order.length) (u : Char),
      (u, order.get ⟨i, hi⟩) ∈ g.edges → u ∈ order.take i) := by
  obtain ⟨hlen, hspec⟩ := planAux_trace_spec layout order robots c0 rs tr h
  refine ⟨hlen, hspec, ?_⟩
  intro i hi u hedge
  have hu : u ∈ order := htopo.1.mem_iff.mpr (hclosed _ hedge)
  have hlt := htopo.2 _ hedge
  rw [indexOf_get_of_nodup order hnodup i hi] at hlt
  exact mem_take_of_indexOf_lt order u i hu hlt

/-- The priority DAG `{C → B, A → B}` (nodes created in the order a real
`Idea::branch` sequence would: first branch C→B, then A→B). -/
def gEx : Digraph := ⟨['C', 'B', 'A'], [('C', 'B'), ('A', 'B')]⟩

/-- Three robots, each already parked on its goal. -/
def exRobots : List (Char × Robot) := [('A', robA), ('B', robB), ('C', robC)]

/-- The instrumentation trace `Idea::plan` produces on `gEx`/`exRobots`. -/
def trEx : List (Char × RightOfWay × Route) :=
  [('C', RightOfWay.empty, [⟨⟨2, 0⟩, 0⟩]),
   ('A', ⟨[], [(0, ⟨2, 0⟩)]⟩, [⟨⟨0, 0⟩, 0⟩]),
   ('B', ⟨[], [(0, ⟨2, 0⟩), (0, ⟨0, 0⟩)]⟩, [⟨⟨4, 0⟩, 0⟩])]

/-- C4 witness: the amended statement evaluated on the DAG `{C→B, A→B}`
with its actual plan order `[C, A, B]`. -/
theorem plan_prefix_merge_witness :
    trEx.length = (Digraph.toposort gEx).length ∧
    (∀ i (hi : i < trEx.length),
      (trEx.get ⟨i, hi⟩).2.1 =
        ((trEx.take i).map (fun e => e.2.2)).foldl
          (fun acc r => acc + RightOfWay.ofRoute r) RightOfWay.empty) ∧
    (∀ i (hi : i < (Digraph.toposort gEx).length) (u : Char),
      (u, (Digraph.toposort gEx).get ⟨i, hi⟩) ∈ gEx.edges →
        u ∈ (Digraph.toposort gEx).take i) :=
  plan_prefix_merge corridor5 gEx (Digraph.toposort gEx) exRobots RightOfWay.empty
    exRobots trEx (by decide) (by decide) (by decide) (by decide)

/-- C4 counterexample: in the DAG `{C→B, A→B}` the agent `A` has no
predecessor at all, yet `Idea::plan` (plan order `[C, A, B]`, a genuine
topological order) plans `A` against a non-empty `RightOfWay` carrying
`C`'s goal-hold — not the (empty) merge of `A`'s strict predecessors. -/
theorem plan_nonpredecessor_constraint :
    Digraph.toposort gEx = ['C', 'A', 'B'] ∧
    IsToposort gEx (Digraph.toposort gEx) ∧
    gEx.edges.filter (fun e => decide (e.2 = 'A')) = [] ∧
    planAux corridor5 (Digraph.toposort gEx) exRobots RightOfWay.empty =
      .ok (exRobots, trEx) ∧
    alFind trEx 'A' = some (⟨[], [(0, ⟨2, 0⟩)]⟩, [⟨⟨0, 0⟩, 0⟩]) ∧
    (⟨[], [(0, ⟨2, 0⟩)]⟩ : RightOfWay) ≠ RightOfWay.empty := by
  decide

/-! ### C9 — acyclicity of the priority graph.  Chain/reachability
machinery relating the fuel-bounded check of `tryAddEdge` to true
acyclicity. -/

theorem chain_subset {edges : List (Char × Char)} {a b : Char} {l : List (Char × Char)}
    (h : Chain edges a b l) : ∀ e ∈ l, e ∈ edges := by
  induction h with
  | nil => simp
  | cons hmem _ ih =>
    intro e he
    rcases List.mem_cons.mp he with rfl | he
    · exact hmem
    · exact ih e he

theorem chain_trans {edges : List (Char × Char)} {a b c : Char}
    {l1 l2 : List (Char × Char)} (h1 : Chain edges a b l1) (h2 : Chain edges b c l2) :
    Chain edges a c (l1 ++ l2) := by
  induction h1 with
  | nil => exact h2
  | cons hmem _ ih => exact Chain.cons hmem (ih h2)

theorem chain_split {edges : List (Char × Char)} {a b : Char} {l : List (Char × Char)}
    (h : Chain edges a b l) {x : Char × Char} (hx : x ∈ l) :
    ∃ l1 l2, l = l1 ++ x :: l2 ∧ Chain edges a x.1 l1 ∧ Chain edges x.2 b l2 := by
  induction h with
  | nil => simp at hx
  | cons hmem hc ih =>
    rename_i cs ce cm l0
    rcases List.mem_cons.mp hx with rfl | hx
    · exact ⟨[], l0, rfl, Chain.nil cs, hc⟩
    · obtain ⟨l1, l2, heq, h1, h2⟩ := ih hx
      exact ⟨(cs, cm) :: l1, l2, by rw [heq]; rfl, Chain.cons hmem h1, h2⟩

theorem two_mem_split {l : List (Char × Char)} (h : ¬ l.Nodup) :
    ∃ x l1 l2, l = l1 ++ x :: l2 ∧ x ∈ l2 := by
  induction l with
  | nil => simp at h
  | cons a as ih =>
    by_cases ha : a ∈ as
    · exact ⟨a, [], as, rfl, ha⟩
    · have has : ¬ as.Nodup := fun hnd => h (List.nodup_cons.mpr ⟨ha, hnd⟩)
      obtain ⟨x, l1, l2, heq, hx⟩ := ih has
      exact ⟨x, a :: l1, l2, by rw [heq]; rfl, hx⟩

theorem chain_append_split {edges : List (Char × Char)} :
    ∀ (l1 : List (Char × Char)) {a b : Char} {l2 : List (Char × Char)},
      Chain edges a b (l1 ++ l2) → ∃ m, Chain edges a m l1 ∧ Chain edges m b l2 := by
  intro l1
  induction l1 with
  | nil =>
    intro a b l2 h
    exact ⟨a, Chain.nil a, h⟩
  | cons e es ih =>
    intro a b l2 h
    cases h with
    | cons hmem hc =>
      obtain ⟨m, h1, h2⟩ := ih hc
      exact ⟨m, Chain.cons hmem h1, h2⟩

theorem chain_shorten_aux (edges : List (Char × Char)) :
    ∀ n (a b : Char) (l : List (Char × Char)), l.length ≤ n → Chain edges a b l →
      ∃ l', Chain edges a b l' ∧ l'.length ≤ edges.length := by
  intro n
  induction n with
  | zero =>
    intro a b l hlen h
    exact ⟨l, h, by omega⟩
  | succ n ih =>
    intro a b l hlen h
    by_cases hnd : l.Nodup
    · refine ⟨l, h, ?_⟩
      have hsub : l.toFinset ⊆ edges.toFinset := by
        intro e he
        rw [List.mem_toFinset] at he ⊢
        exact chain_subset h e he
      calc l.length = l.toFinset.card := (List.toFinset_card_of_nodup hnd).symm
        _ ≤ edges.toFinset.card := Finset.card_le_card hsub
        _ ≤ edges.length := edges.toFinset_card_le
    · obtain ⟨x, l1, l2, heq, hx2⟩ := two_mem_split hnd
      subst heq
      obtain ⟨m, h1, h2⟩ := chain_append_split l1 h
      cases h2 with
      | cons hxe hc2 =>
        rename_i cm
        obtain ⟨l3, l4, heq2, h3, h4⟩ := chain_split hc2 hx2
        have hshorter : Chain edges a b (l1 ++ (m, cm) :: l4) :=
          chain_trans h1 (Chain.cons hxe h4)
        refine ih a b (l1 ++ (m, cm) :: l4) ?_ hshorter
        subst heq2
        simp at hlen ⊢
        omega

theorem chain_shorten {edges : List (Char × Char)} {a b : Char} {l : List (Char × Char)}
    (h : Chain edges a b l) :
    ∃ l', Chain edges a b l' ∧ l'.length ≤ edges.length :=
  chain_shorten_aux edges l.length a b l (Nat.le_refl _) h

theorem chain_of_reachable (edges : List (Char × Char)) :
    ∀ fuel (a b : Char), reachable edges fuel a b = true → ∃ l, Chain edges a b l := by
  intro fuel
  induction fuel with
  | zero =>
    intro a b h
    simp only [reachable, decide_eq_true_eq] at h
    exact ⟨[], h ▸ Chain.nil a⟩
  | succ fuel ih =>
    intro a b h
    simp only [reachable, Bool.or_eq_true, decide_eq_true_eq, List.any_eq_true] at h
    rcases h with rfl | ⟨e, he, hr⟩
    · exact ⟨[], Chain.nil a⟩
    · rcases List.mem_filter.mp he with ⟨hmem, hfst⟩
      rw [decide_eq_true_eq] at hfst
      obtain ⟨l, hl⟩ := ih e.2 b hr
      refine ⟨(a, e.2) :: l, Chain.cons ?_ hl⟩
      have hpair : e = (a, e.2) := by
        rw [← hfst]
      exact hpair ▸ hmem

theorem reachable_of_chain {edges : List (Char × Char)} {a b : Char}
    {l : List (Char × Char)} (h : Chain edges a b l) :
    ∀ fuel, l.length ≤ fuel → reachable edges fuel a b = true := by
  induction h with
  | nil =>
    intro fuel _
    cases fuel <;> simp [reachable]
  | cons hmem hc ih =>
    rename_i cs ce cm l0
    intro fuel hlen
    cases fuel with
    | zero => simp at hlen
    | succ fuel =>
      simp only [reachable, Bool.or_eq_true, List.any_eq_true]
      exact Or.inr ⟨(cs, cm), List.mem_filter.mpr ⟨hmem, by simp⟩, ih fuel (by simpa using hlen)⟩

theorem chain_append_edge {edges : List (Char × Char)} {x : Char × Char} {a b : Char}
    {l : List (Char × Char)} (h : Chain edges a b l) : Chain (edges ++ [x]) a b l := by
  induction h with
  | nil => exact Chain.nil _
  | cons hmem _ ih => exact Chain.cons (List.mem_append_left _ hmem) ih

theorem chain_decompose {edges : List (Char × Char)} {x : Char × Char} {a b : Char}
    {l : List (Char × Char)} (h : Chain (edges ++ [x]) a b l) :
    (∃ l', Chain edges a b l') ∨
    (∃ l1 l2, Chain edges a x.1 l1 ∧ Chain edges x.2 b l2) := by
  induction h with
  | nil => exact Or.inl ⟨[], Chain.nil _⟩
  | cons hmem hc ih =>
    rename_i cs ce cm l0
    rcases List.mem_append.mp hmem with hin | hnew
    · rcases ih with ⟨l', hl'⟩ | ⟨l1, l2, h1, h2⟩
      · exact Or.inl ⟨(cs, cm) :: l', Chain.cons hin hl'⟩
      · exact Or.inr ⟨(cs, cm) :: l1, l2, Chain.cons hin h1, h2⟩
    · have hux : cs = x.1 ∧ cm = x.2 := by
        have heq := List.mem_singleton.mp hnew
        exact ⟨congrArg Prod.fst heq, congrArg Prod.snd heq⟩
      rcases ih with ⟨l', hl'⟩ | ⟨l1, l2, h1, h2⟩
      · refine Or.inr ⟨[], l', ?_, ?_⟩
        · rw [hux.1]
          exact Chain.nil _
        · rw [← hux.2]
          exact hl'
      · refine Or.inr ⟨[], l2, ?_, h2⟩
        rw [hux.1]
        exact Chain.nil _

theorem findOrCreate_edges (g : Digraph) (n : Char) :
    (g.findOrCreate n).edges = g.edges := by
  unfold Digraph.findOrCreate
  split <;> rfl

theorem branch_preserves_acyclic {layout : Layout} {i c : Idea} {bs sb : Char}
    (hb : i.branch layout bs sb = some c) (hac : Acyclic i.priorities.edges) :
    Acyclic c.priorities.edges := by
  simp only [Idea.branch, findOrCreate_edges] at hb
  split at hb
  · simp at hb
  rename_i hnotmem
  split at hb
  · simp at hb
  rename_i g' hadd
  simp only [Digraph.tryAddEdge, findOrCreate_edges] at hadd
  split at hadd
  · simp at hadd
  rename_i hguard
  cases hadd
  split at hb
  · simp at hb
  rename_i child hplan
  cases hb
  have hedges : c.priorities.edges = i.priorities.edges ++ [(bs, sb)] := by
    simp only [Idea.plan, Except.map] at hplan
    split at hplan
    · simp at hplan
    · cases hplan
      rfl
  rw [hedges]
  intro p hp lc hchain
  have hnocycl : ∀ l, ¬ Chain i.priorities.edges sb bs l := by
    intro l hl
    obtain ⟨l', hl', hlen⟩ := chain_shorten hl
    exact absurd (reachable_of_chain hl' _ hlen) (by simp [hguard])
  rcases List.mem_append.mp hp with hpin | hpnew
  · rcases chain_decompose (x := (bs, sb)) hchain with ⟨l', hl'⟩ | ⟨l1, l2, h1, h2⟩
    · exact hac p hpin l' hl'
    · exact hnocycl _ (chain_trans h2 (Chain.cons hpin h1))
  · have hpx : p = (bs, sb) := List.mem_singleton.mp hpnew
    subst hpx
    rcases chain_decompose (x := (bs, sb)) hchain with ⟨l', hl'⟩ | ⟨l1, l2, h1, h2⟩
    · exact hnocycl _ hl'
    · exact hnocycl _ h2

/-- C9: the initial PBS node carries the empty (hence acyclic) priority
graph, every PBS node reachable from it keeps an acyclic priority graph,
and `Idea::branch` refuses a child whose new edge is already present or
whose insertion would close a cycle. -/
theorem priority_graph_acyclic (layout : Layout) :
    (∀ i, ReachableIdea layout i → Acyclic i.priorities.edges) ∧
    (∀ (i : Idea) (bs sb : Char), (bs, sb) ∈ i.priorities.edges →
      i.branch layout bs sb = none) ∧
    (∀ (i : Idea) (bs sb : Char) (l : List (Char × Char)),
      Chain i.priorities.edges sb bs l → i.branch layout bs sb = none) := by
  refine ⟨?_, ?_, ?_⟩
  · intro i hreach
    induction hreach with
    | init robots => intro p hp; simp at hp
    | branch _ hb ih => exact branch_preserves_acyclic hb ih
  · intro i bs sb hmem
    simp only [Idea.branch, findOrCreate_edges]
    rw [if_pos hmem]
  · intro i bs sb l hchain
    simp only [Idea.branch, findOrCreate_edges]
    by_cases hmem : (bs, sb) ∈ i.priorities.edges
    · rw [if_pos hmem]
    · rw [if_neg hmem]
      have hreach : reachable i.priorities.edges i.priorities.edges.length sb bs = true := by
        obtain ⟨l', hl', hlen⟩ := chain_shorten hchain
        exact reachable_of_chain hl' _ hlen
      simp only [Digraph.tryAddEdge, findOrCreate_edges]
      rw [if_pos hreach]

/-- An idea already carrying the edge A→B, used to exhibit both branch
refusals. -/
def ideaAB : Idea := ⟨⟨['A', 'B'], [('A', 'B')]⟩, exRobots⟩

/-- C9 witness: the initial node's empty graph is acyclic; re-adding the
edge A→B on `ideaAB` is refused; adding B→A, which would close a cycle, is
refused. -/
theorem priority_graph_acyclic_witness :
    Acyclic (Idea.priorities ⟨⟨[], []⟩, exRobots⟩).edges ∧
    Idea.branch corridor5 ideaAB 'A' 'B' = none ∧
    Idea.branch corridor5 ideaAB 'B' 'A' = none :=
  ⟨(priority_graph_acyclic corridor5).1 _ (ReachableIdea.init exRobots),
   (priority_graph_acyclic corridor5).2.1 ideaAB 'A' 'B' (by decide),
   (priority_graph_acyclic corridor5).2.2 ideaAB 'B' 'A' [('A', 'B')]
     (Chain.cons (by decide) (Chain.nil 'B'))⟩

/-! ### C3 — the A* exhaustion behaviour.

`astar::solve` has no `time > free_cell_count` skip: the source caps the
loop at `MAX_ITER = 10000` pops (with a TODO comment about detecting
standstill better).  The 3×1 corridor with a blocked middle cell makes the
loop wait forever: the open set is a singleton at every iteration, is
never drained, and nodes of arbitrary time are expanded. -/

/-- A 3×1 corridor whose middle cell is blocked: the goal (2,0) is
unreachable from (0,0), and `free_cell_count = 2`. -/
def corridor3 : Layout := ⟨[⟨0, 0⟩, ⟨2, 0⟩], 3, 1⟩

/-- The open-set item the corridor run holds at iteration `i`: the robot
sat at (0,0) for `i` steps (g = i, h = 4). -/
def corItem : Nat → Item
  | 0 => .mk ⟨⟨0, 0⟩, 0⟩ 0 none
  | n + 1 => .mk ⟨⟨0, 0⟩, n + 1⟩ (n + 5) (some (corItem n))

/-- The score map of the corridor run at iteration `i`. -/
def corScores : Nat → Scores
  | 0 => [(⟨⟨0, 0⟩, 0⟩, 0)]
  | n + 1 => (⟨⟨0, 0⟩, n + 1⟩, n + 1) :: corScores n

theorem corItem_loc (i : Nat) : (corItem i).location = ⟨⟨0, 0⟩, i⟩ := by
  cases i <;> rfl

theorem alFind_cons {α β : Type} [DecidableEq α] (k : α) (v : β)
    (m : List (α × β)) (q : α) :
    alFind ((k, v) :: m) q = if k = q then some v else alFind m q := by
  unfold alFind
  rw [List.find?_cons]
  by_cases h : k = q <;> simp [h]

theorem corScores_find_self (i : Nat) :
    alFind (corScores i) ⟨⟨0, 0⟩, i⟩ = some i := by
  cases i with
  | zero => rfl
  | succ n =>
    rw [corScores, alFind_cons, if_pos rfl]

theorem corScores_find_none (i : Nat) :
    ∀ t, i < t → alFind (corScores i) (⟨⟨0, 0⟩, t⟩ : Location) = none := by
  induction i with
  | zero =>
    intro t ht
    rw [corScores, alFind_cons, if_neg (by simp; omega)]
    rfl
  | succ n ih =>
    intro t ht
    rw [corScores, alFind_cons, if_neg (by simp; omega)]
    exact ih t (by omega)

theorem corridor_prev_action (i : Nat) :
    ((Option.map (fun prev => (⟨0, 0⟩ : Vertex) - prev.location.position)
        (corItem i).came_from).getD .WAIT) = .WAIT := by
  cases i with
  | zero => rfl
  | succ n =>
    show (⟨0, 0⟩ : Vertex) - (corItem n).location.position = Action.WAIT
    rw [corItem_loc]
    rfl

theorem corridor_expand (i : Nat) :
    expand corridor3 ⟨2, 0⟩ RightOfWay.empty (corItem i) ([], corScores i) =
      ([corItem (i + 1)], corScores (i + 1)) := by
  have hloc := corItem_loc i
  have hatEmpty : ∀ t, RightOfWay.empty.atTime t = none := fun _ => rfl
  unfold expand expandStep
  simp only [Action.ALL, List.foldl_cons, List.foldl_nil, hloc]
  simp only [show corridor3.is_blocked ((⟨0, 0⟩ : Vertex) + Action.N.direction) = true from rfl,
    show corridor3.is_blocked ((⟨0, 0⟩ : Vertex) + Action.W.direction) = true from rfl,
    show corridor3.is_blocked ((⟨0, 0⟩ : Vertex) + Action.S.direction) = true from rfl,
    show corridor3.is_blocked ((⟨0, 0⟩ : Vertex) + Action.E.direction) = true from rfl,
    show corridor3.is_blocked ((⟨0, 0⟩ : Vertex) + Action.WAIT.direction) = false from rfl,
    show (⟨0, 0⟩ : Vertex) + Action.WAIT.direction = ⟨0, 0⟩ from rfl,
    hatEmpty, if_true, if_false, Bool.false_eq_true, Option.any]
  rw [corScores_find_none i (i + 1) (Nat.lt_succ_self i),
    corScores_find_self i, corridor_prev_action i]
  simp only [Option.getD_some]
  rw [show ∀ p : Action, Action.WAIT.cost p = 1 from fun p => rfl]
  rw [show Vertex.distance_squared ⟨0, 0⟩ ⟨2, 0⟩ = 4 from rfl]
  rw [show i + 1 + 4 = i + 5 from by omega]
  rfl

theorem corridor_step (i rem : Nat) :
    solveLoop corridor3 ⟨0, 0⟩ ⟨2, 0⟩ RightOfWay.empty (rem + 1) [corItem i] (corScores i) =
      solveLoop corridor3 ⟨0, 0⟩ ⟨2, 0⟩ RightOfWay.empty rem [corItem (i + 1)]
        (corScores (i + 1)) := by
  conv_lhs => rw [solveLoop]
  have hpop : popMin [corItem i] = some (corItem i, []) := rfl
  rw [hpop]
  simp only [corItem_loc]
  rw [if_neg (by simp)]
  rw [show expand corridor3 ⟨2, 0⟩ RightOfWay.empty (corItem i) ([], corScores i) =
    ([corItem (i + 1)], corScores (i + 1)) from corridor_expand i]

theorem corridor_stop (i : Nat) :
    solveLoop corridor3 ⟨0, 0⟩ ⟨2, 0⟩ RightOfWay.empty 0 [corItem i] (corScores i) =
      .error (.RouteNotFound ⟨0, 0⟩ ⟨2, 0⟩) := by
  conv_lhs => rw [solveLoop]
  rfl

theorem corridor_loop_errors :
    ∀ rem i, solveLoop corridor3 ⟨0, 0⟩ ⟨2, 0⟩ RightOfWay.empty rem [corItem i]
      (corScores i) = .error (.RouteNotFound ⟨0, 0⟩ ⟨2, 0⟩) := by
  intro rem
  induction rem with
  | zero => exact corridor_stop
  | succ rem ih =>
    intro i
    rw [corridor_step]
    exact ih (i + 1)

/-- C3 (amended): `astar::solve` has no time-versus-free-cell-count skip.
The loop instead budgets `MAX_ITER = 10000` pops: when the open set drains
the `RouteNotFound` error is reported, but the same error is also reported
once the budget is exhausted even though the open set is non-empty.  On
the 3×1 corridor with a blocked middle cell, every iteration holds the
singleton open set `[corItem i]` — never empty — and `solve` still errors,
via the pop budget. -/
theorem astar_cap_behaviour :
    (∀ (layout : Layout) (s g : Vertex) (c : RightOfWay) (rem : Nat) (scores : Scores),
      solveLoop layout s g c rem [] scores = .error (.RouteNotFound s g)) ∧
    (∀ i rem, solveLoop corridor3 ⟨0, 0⟩ ⟨2, 0⟩ RightOfWay.empty rem [corItem i]
      (corScores i) = .error (.RouteNotFound ⟨0, 0⟩ ⟨2, 0⟩) ∧ [corItem i] ≠ []) ∧
    astarSolve corridor3 ⟨0, 0⟩ ⟨2, 0⟩ RightOfWay.empty =
      .error (.RouteNotFound ⟨0, 0⟩ ⟨2, 0⟩) := by
  refine ⟨?_, ?_, ?_⟩
  · intro layout s g c rem scores
    rw [solveLoop]
    rfl
  · intro i rem
    exact ⟨corridor_loop_errors rem i, by simp⟩
  · unfold astarSolve
    rw [if_neg (by decide), if_neg (by decide)]
    exact corridor_loop_errors MAX_ITER 0

/-- C3 counterexample: on the blocked corridor, `free_cell_count = 2`, yet
the node popped at iteration 3 (time 3 > 2) is expanded — its time-4
successor becomes the open set — rather than skipped; and the run ends in
`RouteNotFound` at the pop budget with the open set still non-empty, so
"errors iff the open set drains" fails too. -/
theorem astar_expands_past_free_cell_count :
    corridor3.free_cell_count < (corItem 3).location.time ∧
    solveLoop corridor3 ⟨0, 0⟩ ⟨2, 0⟩ RightOfWay.empty 9997 [corItem 3] (corScores 3) =
      solveLoop corridor3 ⟨0, 0⟩ ⟨2, 0⟩ RightOfWay.empty 9996 [corItem 4] (corScores 4) ∧
    (corItem 4).came_from = some (corItem 3) ∧
    solveLoop corridor3 ⟨0, 0⟩ ⟨2, 0⟩ RightOfWay.empty 0 [corItem 10000]
      (corScores 10000) = .error (.RouteNotFound ⟨0, 0⟩ ⟨2, 0⟩) ∧
    [corItem 10000] ≠ [] ∧
    astarSolve corridor3 ⟨0, 0⟩ ⟨2, 0⟩ RightOfWay.empty =
      .error (.RouteNotFound ⟨0, 0⟩ ⟨2, 0⟩) := by
  refine ⟨by decide, corridor_step 3 9996, rfl, corridor_stop 10000, by simp, ?_⟩
  unfold astarSolve
  rw [if_neg (by decide), if_neg (by decide)]
  exact corridor_loop_errors MAX_ITER 0

/-- C3 witness: the amended behaviour at concrete instances — a drained
open set errors, and iteration 5 of the corridor run errors with a
non-empty open set. -/
theorem astar_cap_behaviour_witness :
    solveLoop corridor3 ⟨0, 0⟩ ⟨2, 0⟩ RightOfWay.empty 7 [] [] =
      .error (.RouteNotFound ⟨0, 0⟩ ⟨2, 0⟩) ∧
    solveLoop corridor3 ⟨0, 0⟩ ⟨2, 0⟩ RightOfWay.empty 9995 [corItem 5] (corScores 5) =
      .error (.RouteNotFound ⟨0, 0⟩ ⟨2, 0⟩) ∧
    [corItem 5] ≠ [] :=
  ⟨astar_cap_behaviour.1 corridor3 ⟨0, 0⟩ ⟨2, 0⟩ RightOfWay.empty 7 [],
   (astar_cap_behaviour.2.1 5 9995).1, (astar_cap_behaviour.2.1 5 9995).2⟩

/-! ### C1 machinery, part 1 — every route A* returns is proper.

A well-formed open-set item carries time 0 at its root and increments the
time along each `came_from` link, so the reconstructed route has times
0, 1, ..., D in order. -/

/-- Well-formedness of an open-set item's back-chain. -/
def Item.WF : Item → Prop
  | .mk loc _ none => loc.time = 0
  | .mk loc _ (some prev) => loc.time = prev.location.time + 1 ∧ prev.WF

theorem toRoute_spec : ∀ (it : Item), it.WF →
    it.toRoute.length = it.location.time + 1 ∧ Route.Proper it.toRoute
  | .mk loc c none, h => by
    have h0 : loc.time = 0 := h
    refine ⟨by simp [Item.toRoute, Item.location, h0], ?_⟩
    intro i hi
    simp [Item.toRoute] at hi
    subst hi
    exact h0
  | .mk loc c (some prev), h => by
    obtain ⟨htime, hprev⟩ := h
    obtain ⟨hlen, hproper⟩ := toRoute_spec prev hprev
    constructor
    · simp [Item.toRoute, Item.location, htime, hlen]
    · intro i hi
      have hi' : i < prev.toRoute.length + 1 := by
        simpa [Item.toRoute] using hi
      by_cases hcase : i < prev.toRoute.length
      · have : (Item.toRoute (.mk loc c (some prev))).get ⟨i, hi⟩ =
            prev.toRoute.get ⟨i, hcase⟩ := by
          simp [Item.toRoute]
          exact List.getElem_append_left hcase
        rw [this]
        exact hproper i hcase
      · have hieq : i = prev.toRoute.length := by omega
        have : (Item.toRoute (.mk loc c (some prev))).get ⟨i, hi⟩ = loc := by
          simp [Item.toRoute, hieq]
        rw [this, hieq, hlen, htime]

theorem popMin_mem : ∀ (l : List Item) (x : Item) (rest : List Item),
    popMin l = some (x, rest) → x ∈ l ∧ ∀ y ∈ rest, y ∈ l := by
  intro l
  induction l with
  | nil => intro x rest h; simp [popMin] at h
  | cons a as ih =>
    intro x rest h
    simp only [popMin] at h
    split at h
    · cases h
      exact ⟨List.mem_cons_self _ _, by simp⟩
    · rename_i m rest' hrec
      split at h <;> cases h
      · exact ⟨List.mem_cons_self _ _, fun y hy => List.mem_cons_of_mem _ hy⟩
      · obtain ⟨hm, hsub⟩ := ih x rest' hrec
        refine ⟨List.mem_cons_of_mem _ hm, ?_⟩
        intro y hy
        rcases List.mem_cons.mp hy with rfl | hy
        · exact List.mem_cons_self _ _
        · exact List.mem_cons_of_mem _ (hsub y hy)

theorem expandStep_mem (layout : Layout) (g : Vertex) (c : RightOfWay) (item : Item)
    (st : List Item × Scores) (a : Action) :
    ∀ x ∈ (expandStep layout g c item st a).1,
      x ∈ st.1 ∨ ∃ loc cst, x = Item.mk loc cst (some item) ∧
        loc.time = item.location.time + 1 := by
  intro x hx
  simp only [expandStep] at hx
  split at hx
  · exact Or.inl hx
  split at hx
  · exact Or.inl hx
  split at hx
  · exact Or.inl hx
  split at hx
  · split at hx
    · rcases List.mem_append.mp hx with hx | hx
      · exact Or.inl hx
      · rcases List.mem_singleton.mp hx with rfl
        exact Or.inr ⟨_, _, rfl, rfl⟩
    · exact Or.inl hx
  · rcases List.mem_append.mp hx with hx | hx
    · exact Or.inl hx
    · rcases List.mem_singleton.mp hx with rfl
      exact Or.inr ⟨_, _, rfl, rfl⟩

theorem expand_mem (layout : Layout) (g : Vertex) (c : RightOfWay) (item : Item)
    (st : List Item × Scores) :
    ∀ x ∈ (expand layout g c item st).1,
      x ∈ st.1 ∨ ∃ loc cst, x = Item.mk loc cst (some item) ∧
        loc.time = item.location.time + 1 := by
  have : ∀ (acts : List Action) (st : List Item × Scores),
      ∀ x ∈ (acts.foldl (expandStep layout g c item) st).1,
        x ∈ st.1 ∨ ∃ loc cst, x = Item.mk loc cst (some item) ∧
          loc.time = item.location.time + 1 := by
    intro acts
    induction acts with
    | nil => intro st x hx; exact Or.inl hx
    | cons a rest ih =>
      intro st x hx
      rw [List.foldl_cons] at hx
      rcases ih _ x hx with hx' | hshape
      · exact expandStep_mem layout g c item st a x hx'
      · exact Or.inr hshape
  exact this Action.ALL st

theorem solveLoop_proper (layout : Layout) (s g : Vertex) (c : RightOfWay) :
    ∀ (rem : Nat) (openl : List Item) (scores : Scores) (r : Route),
      (∀ it ∈ openl, Item.WF it) →
      solveLoop layout s g c rem openl scores = .ok r →
      Route.Proper r ∧ r ≠ [] := by
  intro rem
  induction rem with
  | zero =>
    intro openl scores r hwf h
    rw [solveLoop] at h
    split at h
    · simp at h
    · simp at h
  | succ rem ih =>
    intro openl scores r hwf h
    rw [solveLoop] at h
    split at h
    · simp at h
    rename_i item rest hpop
    split at h
    · simp at h
    rename_i rem2 hrem
    obtain rfl : rem2 = rem := by omega
    split at h
    · rename_i hgoal
      have hitem : Item.WF item := hwf item (popMin_mem openl item rest hpop).1
      obtain ⟨hlen, hproper⟩ := toRoute_spec item hitem
      cases h
      exact ⟨hproper, by intro hc; rw [hc] at hlen; simp at hlen⟩
    · refine ih _ _ r ?_ h
      intro it hit
      rcases expand_mem layout g c item (rest, scores) it hit with hin | ⟨loc, cst, rfl, htm⟩
      · exact hwf it ((popMin_mem openl item rest hpop).2 it hin)
      · exact ⟨htm, hwf item (popMin_mem openl item rest hpop).1⟩

theorem astarSolve_proper (layout : Layout) (s g : Vertex) (c : RightOfWay) (r : Route)
    (h : astarSolve layout s g c = .ok r) : Route.Proper r ∧ r ≠ [] := by
  unfold astarSolve at h
  split at h
  · simp at h
  split at h
  · simp at h
  refine solveLoop_proper layout s g c MAX_ITER _ _ r ?_ h
  intro it hit
  rcases List.mem_singleton.mp hit with rfl
  show (⟨s, 0⟩ : Location).time = 0
  rfl

/-! ### C1 machinery, part 2 — `Route::conflicts` is symmetric on proper
routes.  The only asymmetric-looking ingredient is the swap test's
"first window of `other` at this time", which for proper routes is the
unique window there. -/

theorem windows_length (r : Route) : (Route.windows r).length = r.length - 1 := by
  simp [Route.windows]

theorem windows_get (r : Route) (i : Nat) (hi : i < (Route.windows r).length) :
    (Route.windows r).get ⟨i, hi⟩ =
      (r.get ⟨i, by have := windows_length r; omega⟩,
       r.get ⟨i + 1, by have := windows_length r; omega⟩) := by
  have hlen := windows_length r
  show (r.zip r.tail).get ⟨i, hi⟩ = _
  rw [List.get_zip]
  refine congrArg _ ?_
  rw [List.get_tail]

theorem windows_find (r : Route) (k : Nat)
    (hk : ∀ i (h : i < r.length), (r.get ⟨i, h⟩).time = k + i) (t : Nat) :
    (Route.windows r).find? (fun w => decide (w.1.time = k + t)) =
      if h : t + 1 < r.length
      then some (r.get ⟨t, by omega⟩, r.get ⟨t + 1, h⟩)
      else none := by
  induction r generalizing k t with
  | nil => simp [Route.windows]
  | cons l0 rest ih =>
    cases rest with
    | nil =>
      rw [show Route.windows [l0] = [] from rfl]
      rw [List.find?_nil, dif_neg (by simp)]
    | cons l1 rest2 =>
      have h0 : l0.time = k := by simpa using hk 0 (by simp)
      rw [show Route.windows (l0 :: l1 :: rest2) = (l0, l1) :: Route.windows (l1 :: rest2)
        from rfl]
      rw [List.find?_cons]
      cases t with
      | zero =>
        rw [show (decide ((l0, l1).1.time = k + 0)) = true by simp [h0]]
        rw [dif_pos (by simp)]
        rfl
      | succ t =>
        rw [show (decide ((l0, l1).1.time = k + (t + 1))) = false by simp [h0]]
        have hrest : ∀ i (h : i < (l1 :: rest2).length),
            ((l1 :: rest2).get ⟨i, h⟩).time = (k + 1) + i := by
          intro i h
          have := hk (i + 1) (by simpa using Nat.succ_lt_succ h)
          rw [show (k + 1) + i = k + (i + 1) from by omega]
          exact this
        rw [show k + (t + 1) = (k + 1) + t from by omega, ih (k + 1) hrest t]
        by_cases hlt : t + 1 < (l1 :: rest2).length
        · rw [dif_pos hlt, dif_pos (by simp at hlt ⊢; omega)]
          rfl
        · rw [dif_neg hlt, dif_neg (by simp at hlt ⊢; omega)]

theorem interSame_symm (r1 r2 : Route) :
    Route.interSame r1 r2 = [] ↔ Route.interSame r2 r1 = [] := by
  unfold Route.interSame
  simp only [List.map_eq_nil_iff, List.filter_eq_nil_iff, decide_eq_true_eq]
  constructor <;> intro h l hl hl' <;> exact h l hl' hl

theorem interGoal_symm (r1 r2 : Route) :
    Route.interGoal r1 r2 = [] ↔ Route.interGoal r2 r1 = [] := by
  unfold Route.interGoal
  cases hg1 : r1.getLast? with
  | none => cases hg2 : r2.getLast? <;> simp
  | some a =>
    cases hg2 : r2.getLast? with
    | none => simp
    | some b =>
      show (if a.position = b.position then [a.position] else []) = [] ↔
        (if b.position = a.position then [b.position] else []) = []
      by_cases hpos : a.position = b.position
      · rw [if_pos hpos, if_pos hpos.symm]
        simp
      · rw [if_neg hpos, if_neg (fun hc => hpos hc.symm)]

theorem interSwap_symm (r1 r2 : Route) (h1 : Route.Proper r1) (h2 : Route.Proper r2)
    (hne : Route.interSwap r1 r2 ≠ []) : Route.interSwap r2 r1 ≠ [] := by
  obtain ⟨v, hv⟩ := List.exists_mem_of_ne_nil _ hne
  unfold Route.interSwap at hv
  rw [List.mem_flatMap] at hv
  obtain ⟨w, hwf, -⟩ := hv
  rw [List.mem_filter] at hwf
  obtain ⟨hwmem, hcond⟩ := hwf
  obtain ⟨⟨i, hi⟩, hw⟩ := List.mem_iff_get.mp hwmem
  rw [windows_get] at hw
  have hlen1 := windows_length r1
  have hi1 : i + 1 < r1.length := by omega
  subst hw
  have htime : (r1.get ⟨i, by omega⟩).time = 0 + i := by
    simpa using h1 i (by omega)
  rw [show ((r1.get ⟨i, by omega⟩, r1.get ⟨i + 1, hi1⟩) :
    Location × Location).1.time = (r1.get ⟨i, by omega⟩).time from rfl, htime] at hcond
  rw [windows_find r2 0 (by simpa using h2) i] at hcond
  by_cases hi2 : i + 1 < r2.length
  · rw [dif_pos hi2] at hcond
    simp only [Bool.and_eq_true, decide_eq_true_eq] at hcond
    obtain ⟨hc1, hc2⟩ := hcond
    refine List.ne_nil_of_mem (a := (r2.get ⟨i, by omega⟩).position) ?_
    unfold Route.interSwap
    rw [List.mem_flatMap]
    refine ⟨(r2.get ⟨i, by omega⟩, r2.get ⟨i + 1, hi2⟩), ?_, by simp⟩
    rw [List.mem_filter]
    constructor
    · have hi2' : i < (Route.windows r2).length := by
        have := windows_length r2
        omega
      have hmm := windows_get r2 i hi2'
      rw [← hmm]
      exact List.get_mem _ i hi2'
    · have htime2 : (r2.get ⟨i, by omega⟩).time = 0 + i := by simpa using h2 i (by omega)
      rw [show ((r2.get ⟨i, by omega⟩, r2.get ⟨i + 1, hi2⟩) :
        Location × Location).1.time = (r2.get ⟨i, by omega⟩).time from rfl, htime2]
      rw [windows_find r1 0 (by simpa using h1) i, dif_pos hi1]
      simp only [Bool.and_eq_true, decide_eq_true_eq]
      exact ⟨hc2.symm, hc1.symm⟩
  · rw [dif_neg hi2] at hcond
    simp at hcond

theorem conflicts_symm (r1 r2 : Route) (h1 : Route.Proper r1) (h2 : Route.Proper r2) :
    Route.conflicts r1 r2 = false → Route.conflicts r2 r1 = false := by
  intro h
  by_contra hc
  have hc' : Route.conflicts r2 r1 = true := by
    cases hb : Route.conflicts r2 r1
    · exact absurd hb hc
    · rfl
  unfold Route.conflicts at h hc'
  simp only [Bool.not_eq_true', Bool.not_eq_false', List.isEmpty_iff] at h hc'
  unfold Route.intersection at h hc'
  rcases List.append_eq_nil.mp h with ⟨h12, hsw1⟩
  rcases List.append_eq_nil.mp h12 with ⟨hsame1, hgoal1⟩
  have hsame2 : Route.interSame r2 r1 = [] := (interSame_symm r1 r2).mp hsame1
  have hgoal2 : Route.interGoal r2 r1 = [] := (interGoal_symm r1 r2).mp hgoal1
  have hswap2 : Route.interSwap r2 r1 = [] := by
    by_contra hsw2
    exact absurd hsw1 (interSwap_symm r2 r1 h2 h1 hsw2)
  rw [hsame2, hgoal2, hswap2] at hc'
  simp at hc'

/-! ### C1 machinery, part 3 — the PBS loop returns only conflict-free
robot maps. -/

theorem firstConflict_none : ∀ (l : List Robot), firstConflict l = none →
    ∀ i j (hi : i < l.length) (hj : j < l.length), i < j →
      Route.conflicts (l.get ⟨i, hi⟩).route (l.get ⟨j, hj⟩).route = false := by
  intro l
  induction l with
  | nil =>
    intro h i j hi
    simp at hi
  | cons r rest ih =>
    intro h i j hi hj hij
    simp only [firstConflict] at h
    split at h
    · simp at h
    rename_i hfind
    cases i with
    | zero =>
      cases j with
      | zero => omega
      | succ j =>
        have hj' : j < rest.length := by simpa using hj
        have hmem : rest.get ⟨j, hj'⟩ ∈ rest := List.get_mem _ _ _
        have hnc := List.find?_eq_none.mp hfind _ hmem
        show Route.conflicts r.route (rest.get ⟨j, hj'⟩).route = false
        cases hcb : Route.conflicts r.route (rest.get ⟨j, hj'⟩).route
        · rfl
        · exact absurd hcb hnc
    | succ i =>
      cases j with
      | zero => omega
      | succ j =>
        exact ih h i j (by simpa using hi) (by simpa using hj) (by omega)

theorem updateRobot_mem (robots : List (Char × Robot)) (n : Char) (r : Robot) :
    ∀ q ∈ updateRobot robots n r, q = (n, r) ∨ q ∈ robots := by
  intro q hq
  unfold updateRobot at hq
  rw [List.mem_map] at hq
  obtain ⟨p, hp, hpe⟩ := hq
  by_cases h : p.1 = n
  · rw [if_pos h] at hpe
    exact Or.inl hpe.symm
  · rw [if_neg h] at hpe
    exact Or.inr (hpe ▸ hp)

theorem robotPlan_proper {r r' : Robot} {layout : Layout} {c : RightOfWay}
    (h : r.plan layout c = .ok r') : Route.Proper r'.route := by
  unfold Robot.plan at h
  split at h
  · simp at h
  rename_i g hgoal
  simp only [Except.map] at h
  split at h
  · simp at h
  rename_i route hast
  cases h
  exact (astarSolve_proper _ _ _ _ _ hast).1

theorem planAux_proper (layout : Layout) :
    ∀ (order : List Char) (robots : List (Char × Robot)) (c0 : RightOfWay)
      (out : List (Char × Robot) × List (Char × RightOfWay × Route)),
      (∀ p ∈ robots, Route.Proper p.2.route) →
      planAux layout order robots c0 = .ok out →
      ∀ p ∈ out.1, Route.Proper p.2.route := by
  intro order
  induction order with
  | nil =>
    intro robots c0 out hr h
    simp only [planAux] at h
    cases h
    exact hr
  | cons n rest ih =>
    intro robots c0 out hr h
    simp only [planAux] at h
    split at h
    · simp at h
    rename_i robot hfind
    split at h
    · simp at h
    rename_i robot' hplan
    split at h
    · simp at h
    rename_i robots' trace hrec
    cases h
    intro p hp
    refine ih _ _ _ ?_ hrec p hp
    intro q hq
    rcases updateRobot_mem robots n robot' q hq with rfl | hqin
    · exact robotPlan_proper hplan
    · exact hr q hqin

theorem branch_proper {layout : Layout} {i c : Idea} {a b : Char}
    (hb : i.branch layout a b = some c)
    (hr : ∀ p ∈ i.robots, Route.Proper p.2.route) :
    ∀ p ∈ c.robots, Route.Proper p.2.route := by
  simp only [Idea.branch] at hb
  split at hb
  · simp at hb
  split at hb
  · simp at hb
  rename_i g' hadd
  split at hb
  · simp at hb
  rename_i child hplan
  cases hb
  simp only [Idea.plan, Except.map] at hplan
  split at hplan
  · simp at hplan
  rename_i out haux
  cases hplan
  exact planAux_proper layout _ _ _ _ hr haux

theorem popMinIdea_mem : ∀ (l : List Idea) (x : Idea) (rest : List Idea),
    popMinIdea l = some (x, rest) → x ∈ l ∧ ∀ y ∈ rest, y ∈ l := by
  intro l
  induction l with
  | nil => intro x rest h; simp [popMinIdea] at h
  | cons a as ih =>
    intro x rest h
    simp only [popMinIdea] at h
    split at h
    · cases h
      exact ⟨List.mem_cons_self _ _, by simp⟩
    · rename_i m rest' hrec
      split at h <;> cases h
      · exact ⟨List.mem_cons_self _ _, fun y hy => List.mem_cons_of_mem _ hy⟩
      · obtain ⟨hm, hsub⟩ := ih x rest' hrec
        refine ⟨List.mem_cons_of_mem _ hm, ?_⟩
        intro y hy
        rcases List.mem_cons.mp hy with rfl | hy
        · exact List.mem_cons_self _ _
        · exact List.mem_cons_of_mem _ (hsub y hy)

theorem mem_option_toList {o : Option Idea} {x : Idea} (h : x ∈ o.toList) :
    o = some x := by
  cases o with
  | none => simp at h
  | some c =>
    rcases List.mem_singleton.mp h with rfl
    rfl

/-- C1: whenever the PBS loop (`Pbs::solve`, driven by `Shaman::solve`)
returns a world, the routes of every pair of distinct robots in it are
conflict-free (`Route::conflicts` is `false`, i.e. `Route::intersection`
is empty): `solve` returns a popped idea only when no conflicting pair
exists in it, and on proper routes the conflict test is symmetric, so the
guarantee covers both orders of every pair.  The hypothesis `hq` records
that every route in the starting frontier was produced by the planner
(times 0, 1, ..., D), which `Shaman::parse` guarantees. -/
theorem pbs_solution_conflict_free (layout : Layout) :
    ∀ (fuel : Nat) (queue : List Idea) (robots : List (Char × Robot)),
      (∀ idea ∈ queue, ∀ p ∈ idea.robots, Route.Proper p.2.route) →
      solveAux layout fuel queue = .ok robots →
      ∀ i j (hi : i < robots.length) (hj : j < robots.length), i ≠ j →
        Route.conflicts (robots.get ⟨i, hi⟩).2.route (robots.get ⟨j, hj⟩).2.route = false := by
  intro fuel
  induction fuel with
  | zero =>
    intro queue robots hq h
    simp [solveAux] at h
  | succ fuel ih =>
    intro queue robots hq h
    simp only [solveAux] at h
    split at h
    · simp at h
    rename_i idea rest hpop
    have hidea := (popMinIdea_mem queue idea rest hpop).1
    have hrsub := (popMinIdea_mem queue idea rest hpop).2
    split at h
    · rename_i hconf
      cases h
      intro i j hi hj hij
      have hi' : i < idea.robots.length := by simpa using hi
      have hj' : j < idea.robots.length := by simpa using hj
      have hgmap : ∀ m (hm : m < idea.robots.length),
          ((idea.robots.map (fun (p : Char × Robot) => (p.2.name, p.2))).get
            ⟨m, by simpa using hm⟩).2.route = (idea.robots.get ⟨m, hm⟩).2.route := by
        intro m hm
        rw [List.get_map]
      have hsmap : ∀ m (hm : m < idea.robots.length),
          ((idea.robots.map Prod.snd).get ⟨m, by simpa using hm⟩).route =
            (idea.robots.get ⟨m, hm⟩).2.route := by
        intro m hm
        rw [List.get_map]
      have hbase : ∀ u v (hu : u < idea.robots.length) (hv : v < idea.robots.length),
          u < v → Route.conflicts (idea.robots.get ⟨u, hu⟩).2.route
            (idea.robots.get ⟨v, hv⟩).2.route = false := by
        intro u v hu hv huv
        have := firstConflict_none (idea.robots.map Prod.snd) hconf u v
          (by simpa using hu) (by simpa using hv) huv
        rwa [hsmap u hu, hsmap v hv] at this
      have hproper : ∀ m (hm : m < idea.robots.length),
          Route.Proper (idea.robots.get ⟨m, hm⟩).2.route := by
        intro m hm
        exact hq idea hidea _ (List.get_mem _ _ _)
      rw [hgmap i hi', hgmap j hj']
      rcases Nat.lt_or_ge i j with hlt | hge
      · exact hbase i j hi' hj' hlt
      · have hlt : j < i := by omega
        exact conflicts_symm _ _ (hproper j hj') (hproper i hi') (hbase j i hj' hi' hlt)
    · rename_i a b hconf
      refine ih _ robots ?_ h
      intro idea2 h2 p hp
      rcases List.mem_append.mp h2 with h12 | hY
      · rcases List.mem_append.mp h12 with hrest2 | hX
        · exact hq idea2 (hrsub idea2 hrest2) p hp
        · exact branch_proper (mem_option_toList hX) (hq idea hidea) p hp
      · exact branch_proper (mem_option_toList hY) (hq idea hidea) p hp

/-- C1 witness: a two-robot world with disjoint parked routes solves
immediately and the two returned robots' routes are conflict-free. -/
theorem pbs_solution_conflict_free_witness :
    Route.conflicts (Robot.route robA) (Robot.route robB) = false :=
  pbs_solution_conflict_free corridor5 1 [⟨⟨[], []⟩, [('A', robA), ('B', robB)]⟩]
    [('A', robA), ('B', robB)] (by decide) (by decide) 0 1 (by decide) (by decide)
    (by decide)

/-- C6 witness: the round-trip on a concrete three-step route, queried at
its duration (the permanent goal-hold entry answers). -/
theorem rightOfWay_roundTrip_witness :
    ∃ (hlt : 2 < ([⟨⟨0, 0⟩, 0⟩, ⟨⟨1, 0⟩, 1⟩, ⟨⟨2, 0⟩, 2⟩] : Route).length),
      (RightOfWay.ofRoute [⟨⟨0, 0⟩, 0⟩, ⟨⟨1, 0⟩, 1⟩, ⟨⟨2, 0⟩, 2⟩]).atTime 2 =
        some ((([⟨⟨0, 0⟩, 0⟩, ⟨⟨1, 0⟩, 1⟩, ⟨⟨2, 0⟩, 2⟩] : Route).get ⟨2, hlt⟩).position) :=
  rightOfWay_roundTrip _ (by decide) (by simp) 2 (by decide)

end Shaman
